import Mathlib

set_option maxHeartbeats 1000000

/-!
Shallow embedding of the VideoResound dubbing pipeline
(`src/video_dubber.py`, `src/processors/voice_cloner.py`,
`src/processors/whisper_processor.py`, `src/models/subtitle.py`).

Timestamps and durations are modelled as exact rationals (the Python code
works on floats; every concrete value used in a theorem below is exactly
representable as a binary float, so float arithmetic and rational
arithmetic agree on it).  External engines (TTS synthesis, translation,
the filesystem) are modelled as explicit function parameters, so every
definition is executable.
-/

namespace VideoResound

/-- A timed utterance (`models/subtitle.py`, class `SubtitleSegment`):
`start`/`end` in seconds, `content` the (already stripped) text. -/
structure SubtitleSegment where
  start : ℚ
  «end» : ℚ
  content : String
deriving DecidableEq

/-- One element of the audio track accumulated by
`VoiceCloner.generate_timed_audio`: either inserted silence of a given
duration, or the synthesized clip for the subtitle at a given loop index.
Durations are in milliseconds, exactly as `pydub` counts them. -/
inductive TrackElem where
  | silence (duration : ℚ)
  | clip (idx : ℕ) (duration : ℚ)
deriving DecidableEq

/-- Duration in milliseconds contributed by one track element. -/
def TrackElem.dur : TrackElem → ℚ
  | .silence d => d
  | .clip _ d => d

/-- `len(final_audio)` of the accumulated track, in milliseconds. -/
def trackLen (t : List TrackElem) : ℚ :=
  (t.map TrackElem.dur).sum

/-- Loop state of `generate_timed_audio`: the accumulated track
(`final_audio`) and the cursor `last_end` (seconds). -/
structure GenState where
  track : List TrackElem
  last_end : ℚ
deriving DecidableEq

/-- Stable insertion into a list sorted by `start` (helper for
`sortByStart`): the element goes before the first strictly larger key, so
equal keys keep their original relative order, as Python `sorted` does. -/
def insertByStart (a : SubtitleSegment) : List SubtitleSegment → List SubtitleSegment
  | [] => [a]
  | b :: bs => if a.start ≤ b.start then a :: b :: bs else b :: insertByStart a bs

/-- `sorted(subtitles, key=lambda x: x.start)` — stable sort by `start`
(voice_cloner.py line 149). -/
def sortByStart : List SubtitleSegment → List SubtitleSegment
  | [] => []
  | a :: rest => insertByStart a (sortByStart rest)

/-- One iteration of the subtitle loop in `generate_timed_audio`
(voice_cloner.py lines 151-186), for the `i`-th sorted subtitle.

The synthesis engine is abstracted by two parameters: `success i` tells
whether the `i`-th TTS call produced a readable wav file (covering both
failure modes in the source: `tts_to_file` raising, which the inner
`except` turns into a skip, and the output file missing), and `clipDur i`
is the synthesized clip length in milliseconds when it succeeded.  Both
failure modes strike only after the gap silence has been appended, so a
failed subtitle still contributes its gap silence but no clip and leaves
`last_end` untouched. -/
def processSub (max_gap : ℚ) (success : ℕ → Bool) (clipDur : ℕ → ℚ)
    (st : GenState) (p : ℕ × SubtitleSegment) : GenState :=
  let i := p.1
  let sub := p.2
  let gap : ℚ := if 0 < i then sub.start - st.last_end else 0
  let withSilence : List TrackElem :=
    if 0 < gap then st.track ++ [TrackElem.silence (min (gap * 1000) (max_gap * 1000))]
    else st.track
  if success i then
    { track := withSilence ++ [TrackElem.clip i (clipDur i)], last_end := sub.«end» }
  else
    { track := withSilence, last_end := st.last_end }

/-- The whole subtitle loop of `generate_timed_audio`: fold `processSub`
over the sorted, enumerated subtitles starting from an empty track and
`last_end = 0`. -/
def genFold (subtitles : List SubtitleSegment) (max_gap : ℚ)
    (success : ℕ → Bool) (clipDur : ℕ → ℚ) : GenState :=
  ((sortByStart subtitles).enum).foldl (processSub max_gap success clipDur)
    { track := [], last_end := 0 }

/-- `VoiceCloner.generate_timed_audio` (voice_cloner.py lines 134-196),
for runs in which the reference-audio lookup succeeded (otherwise the
function returns `False` before the loop).  Returns the Python result
(`True`/`False`) together with the exported track (`[]` when nothing was
exported): after the loop, the track is exported exactly when
`len(final_audio) > 0`; otherwise the raised `RuntimeError` is caught by
the outer handler, which returns `False`. -/
def generate_timed_audio (subtitles : List SubtitleSegment) (max_gap : ℚ)
    (success : ℕ → Bool) (clipDur : ℕ → ℚ) : Bool × List TrackElem :=
  let st := genFold subtitles max_gap success clipDur
  if 0 < trackLen st.track then (true, st.track) else (false, [])

/-! ### Lemmas about the synthesis loop -/

/-- The loop only ever appends to the accumulated track. -/
theorem mem_track_processSub (g : ℚ) (su : ℕ → Bool) (c : ℕ → ℚ)
    (st : GenState) (p : ℕ × SubtitleSegment) (x : TrackElem) (hx : x ∈ st.track) :
    x ∈ (processSub g su c st p).track := by
  cases hs : su p.1 <;>
    by_cases hg : (0 : ℚ) < (if 0 < p.1 then p.2.start - st.last_end else 0) <;>
      simp [processSub, hs, hg, List.mem_append, hx]

/-- Track membership is preserved by the rest of the fold. -/
theorem mem_track_foldl (g : ℚ) (su : ℕ → Bool) (c : ℕ → ℚ) :
    ∀ (l : List (ℕ × SubtitleSegment)) (st : GenState) (x : TrackElem),
      x ∈ st.track → x ∈ (l.foldl (processSub g su c) st).track := by
  intro l
  induction l with
  | nil => intro st x hx; simpa using hx
  | cons p rest ih =>
      intro st x hx
      exact ih _ x (mem_track_processSub g su c st p x hx)

/-- The evolution of `last_end` depends only on the previous `last_end`
(never on the synthesized clip durations or the track). -/
theorem foldl_last_end_ext (g : ℚ) (su : ℕ → Bool) (c cAlt : ℕ → ℚ) :
    ∀ (l : List (ℕ × SubtitleSegment)) (st stAlt : GenState),
      st.last_end = stAlt.last_end →
      (l.foldl (processSub g su c) st).last_end
        = (l.foldl (processSub g su cAlt) stAlt).last_end := by
  intro l
  induction l with
  | nil => intro st stAlt h; simpa using h
  | cons p rest ih =>
      intro st stAlt h
      apply ih
      cases hs : su p.1 <;> simp [processSub, hs, h]

/-- A successful step appends its clip to the track. -/
theorem clip_mem_processSub (g : ℚ) (su : ℕ → Bool) (c : ℕ → ℚ)
    (st : GenState) (i : ℕ) (sub : SubtitleSegment) (hs : su i = true) :
    TrackElem.clip i (c i) ∈ (processSub g su c st (i, sub)).track := by
  by_cases hg : (0 : ℚ) < (if 0 < i then sub.start - st.last_end else 0) <;>
    simp [processSub, hs, hg]

/-- A successful subtitle's clip is in the final track, whatever happened
to the other subtitles. -/
theorem clip_mem_foldl_enumFrom (g : ℚ) (su : ℕ → Bool) (c : ℕ → ℚ) :
    ∀ (l : List SubtitleSegment) (n : ℕ) (st : GenState) (j : ℕ),
      j < l.length → su (n + j) = true →
      TrackElem.clip (n + j) (c (n + j))
        ∈ ((List.enumFrom n l).foldl (processSub g su c) st).track := by
  intro l
  induction l with
  | nil => intro n st j hj _; simp at hj
  | cons a rest ih =>
      intro n st j hj hsu
      cases j with
      | zero =>
          show TrackElem.clip (n + 0) (c (n + 0))
            ∈ (((n, a) :: List.enumFrom (n + 1) rest).foldl (processSub g su c) st).track
          rw [List.foldl_cons]
          exact mem_track_foldl g su c _ _ _ (clip_mem_processSub g su c st (n + 0) a hsu)
      | succ j =>
          have h1 : j < rest.length := by
            simpa using Nat.lt_of_succ_lt_succ hj
          have h2 : su (n + 1 + j) = true := by
            have : n + 1 + j = n + (j + 1) := by omega
            rw [this]; exact hsu
          have := ih (n + 1) (processSub g su c st (n, a)) j h1 h2
          have heq : n + 1 + j = n + (j + 1) := by omega
          rw [heq] at this
          exact this

/-- If every synthesis attempt fails, the accumulated track consists of
silence only. -/
theorem all_fail_silence_only (g : ℚ) (su : ℕ → Bool) (c : ℕ → ℚ)
    (hsu : ∀ i, su i = false) :
    ∀ (l : List (ℕ × SubtitleSegment)) (st : GenState),
      (∀ x ∈ st.track, ∃ d, x = TrackElem.silence d) →
      ∀ x ∈ (l.foldl (processSub g su c) st).track, ∃ d, x = TrackElem.silence d := by
  intro l
  induction l with
  | nil => intro st hst; simpa using hst
  | cons p rest ih =>
      intro st hst
      apply ih
      intro x hx
      by_cases hg : (0 : ℚ) < (if 0 < p.1 then p.2.start - st.last_end else 0) <;>
        simp [processSub, hsu p.1, hg] at hx
      · rcases hx with hx | hx
        · exact hst x hx
        · exact ⟨_, hx⟩
      · exact hst x hx

/-! ### Claims C1, C3, C7 about `generate_timed_audio` -/

/-- Claim C1, counterexample.  With subtitles `[(0,2,"a"), (3,4,"b")]` and
every synthesis attempt failing, `generate_timed_audio` still returns a
truthy result and exports a file: the gap before the second subtitle
inserts 1000 ms of silence (the cursor never advanced), so the
accumulated track is non-empty and is exported.  This refutes "if every
subtitle fails synthesis, the function reports failure and exports no
output". -/
theorem claim1_counterexample :
    generate_timed_audio [⟨0, 2, "a"⟩, ⟨3, 4, "b"⟩] 1 (fun _ => false) (fun _ => 0)
      = (true, [TrackElem.silence 1000]) := by
  norm_num [generate_timed_audio, genFold, sortByStart, insertByStart, processSub, trackLen,
    TrackElem.dur, List.enum, List.enumFrom]

/-- Claim C1, amended: `generate_timed_audio` returns `True` and exports
the accumulated track exactly when that track (synthesized clips *plus*
inserted gap silence) has non-zero length, and returns `False` with no
export otherwise.  When every subtitle fails synthesis the track consists
of silence only, and for at most one subtitle an all-failing run does
return `False` with no export — but with two or more subtitles a positive
gap still yields an exported, silence-only file. -/
theorem claim1_amended (subs : List SubtitleSegment) (g : ℚ)
    (su : ℕ → Bool) (c : ℕ → ℚ) :
    ((generate_timed_audio subs g su c).1 = true
      ↔ 0 < trackLen (genFold subs g su c).track) ∧
    ((generate_timed_audio subs g su c).1 = false
      → (generate_timed_audio subs g su c).2 = []) ∧
    ((generate_timed_audio subs g su c).1 = true
      → (generate_timed_audio subs g su c).2 = (genFold subs g su c).track) ∧
    ((∀ i, su i = false)
      → ∀ x ∈ (genFold subs g su c).track, ∃ d, x = TrackElem.silence d) ∧
    (subs.length ≤ 1 → (∀ i, su i = false)
      → generate_timed_audio subs g su c = (false, [])) := by
  refine ⟨?_, ?_, ?_, ?_, ?_⟩
  · by_cases h : 0 < trackLen (genFold subs g su c).track <;>
      simp [generate_timed_audio, h]
  · by_cases h : 0 < trackLen (genFold subs g su c).track <;>
      simp [generate_timed_audio, h]
  · by_cases h : 0 < trackLen (genFold subs g su c).track <;>
      simp [generate_timed_audio, h]
  · intro hsu
    exact all_fail_silence_only g su c hsu _ _ (by simp)
  · intro hlen hsu
    match subs with
    | [] =>
        simp [generate_timed_audio, genFold, sortByStart, trackLen, List.enum, List.enumFrom]
    | [s] =>
        simp [generate_timed_audio, genFold, sortByStart, insertByStart, processSub,
          trackLen, hsu 0, List.enum, List.enumFrom]
    | a :: b :: rest => simp at hlen

/-- Claim C3: no silence is ever inserted before subtitle index 0; for a
later subtitle with a positive gap `start_i - last_end`, exactly
`min(gap, max_gap)` seconds (`1000 * min gap max_gap` milliseconds) of
silence are appended before its clip; and on the spec's concrete example
`[(0,2,"a"), (3,4,"b")]` with `max_gap = 1.0` the output is the two
synthesized clips separated by exactly 1000 ms of silence, with no
leading silence. -/
theorem claim3_gap_silence (g : ℚ) (su : ℕ → Bool) (c : ℕ → ℚ)
    (st : GenState) (sub : SubtitleSegment) (i : ℕ) :
    ((processSub g su c st (0, sub)).track
      = st.track ++ (if su 0 then [TrackElem.clip 0 (c 0)] else [])) ∧
    (0 < i → 0 < sub.start - st.last_end →
      (processSub g su c st (i, sub)).track
        = st.track ++ [TrackElem.silence (1000 * min (sub.start - st.last_end) g)]
            ++ (if su i then [TrackElem.clip i (c i)] else [])) ∧
    ((∀ j, 0 < c j) →
      generate_timed_audio [⟨0, 2, "a"⟩, ⟨3, 4, "b"⟩] 1 (fun _ => true) c
        = (true, [TrackElem.clip 0 (c 0), TrackElem.silence 1000,
            TrackElem.clip 1 (c 1)])) := by
  refine ⟨?_, ?_, ?_⟩
  · cases hs : su 0 <;> simp [processSub, hs]
  · intro hi hgap
    have h1000 : min ((sub.start - st.last_end) * 1000) (g * 1000)
        = 1000 * min (sub.start - st.last_end) g := by
      rcases le_total (sub.start - st.last_end) g with h | h
      · rw [min_eq_left (by nlinarith), min_eq_left h]; ring
      · rw [min_eq_right (by nlinarith), min_eq_right h]; ring
    cases hs : su i <;> simp [processSub, hi, hgap, hs, h1000]
  · intro hc
    have htrack : (genFold [⟨0, 2, "a"⟩, ⟨3, 4, "b"⟩] 1 (fun _ => true) c).track
        = [TrackElem.clip 0 (c 0), TrackElem.silence 1000, TrackElem.clip 1 (c 1)] := by
      norm_num [genFold, sortByStart, insertByStart, processSub, List.enum, List.enumFrom]
    have hpos : 0 < trackLen [TrackElem.clip 0 (c 0), TrackElem.silence 1000,
        TrackElem.clip 1 (c 1)] := by
      have h0 := hc 0
      have h1 := hc 1
      simp [trackLen, TrackElem.dur]
      linarith
    simp [generate_timed_audio, htrack, hpos]

/-- Witness for claim C3: the concrete example with 500 ms clips. -/
theorem claim3_gap_silence_witness :
    generate_timed_audio [⟨0, 2, "a"⟩, ⟨3, 4, "b"⟩] 1 (fun _ => true) (fun _ => 500)
      = (true, [TrackElem.clip 0 500, TrackElem.silence 1000, TrackElem.clip 1 500]) :=
  (claim3_gap_silence 1 (fun _ => true) (fun _ => 500)
    { track := [], last_end := 0 } ⟨0, 2, "a"⟩ 0).2.2 (fun _ => by norm_num)

/-- Claim C7: a failed synthesis leaves `last_end` unchanged (the
subtitle is skipped and the fold simply continues with the next one); a
successful synthesis sets `last_end` to the subtitle's *source* end
timestamp; `last_end` never depends on the synthesized clip durations;
and a successful subtitle's clip always reaches the final track no matter
which other subtitles failed. -/
theorem claim7_skip_and_advance (g : ℚ) (su : ℕ → Bool) (c cAlt : ℕ → ℚ)
    (subs : List SubtitleSegment) (st : GenState) (i : ℕ) (sub : SubtitleSegment) :
    (su i = false → (processSub g su c st (i, sub)).last_end = st.last_end) ∧
    (su i = true → (processSub g su c st (i, sub)).last_end = sub.«end») ∧
    ((genFold subs g su c).last_end = (genFold subs g su cAlt).last_end) ∧
    (∀ j, j < (sortByStart subs).length → su j = true →
      TrackElem.clip j (c j) ∈ (genFold subs g su c).track) := by
  refine ⟨?_, ?_, ?_, ?_⟩
  · intro hs; simp [processSub, hs]
  · intro hs; simp [processSub, hs]
  · exact foldl_last_end_ext g su c cAlt _ _ _ rfl
  · intro j hj hsu
    have := clip_mem_foldl_enumFrom g su c (sortByStart subs) 0 { track := [], last_end := 0 }
      j hj (by simpa using hsu)
    simpa [genFold, List.enum] using this

/-- Witness for claim C7: with a single always-failing subtitle the
cursor stays at 0. -/
theorem claim7_skip_and_advance_witness :
    (processSub 1 (fun _ => false) (fun _ => 0)
      { track := [], last_end := 0 } (0, ⟨0, 1, "x"⟩)).last_end = 0 :=
  (claim7_skip_and_advance 1 (fun _ => false) (fun _ => 0) (fun _ => 0) []
    { track := [], last_end := 0 } 0 ⟨0, 1, "x"⟩).1 rfl

/-- Witness for claim C1 (amended): a single all-failing subtitle yields
`(False, no output)`. -/
theorem claim1_amended_witness :
    generate_timed_audio [⟨0, 2, "a"⟩] 1 (fun _ => false) (fun _ => 0) = (false, []) :=
  (claim1_amended [⟨0, 2, "a"⟩] 1 (fun _ => false) (fun _ => 0)).2.2.2.2
    (by decide) (fun _ => rfl)

/-! ### Segment partition (`VideoDubber.dub_video`, video_dubber.py lines 238-239) -/

/-- Python `int(x)` on an exact rational: truncation toward zero
(`Int.tdiv` is Lean's toward-zero division). -/
def pyTrunc (q : ℚ) : ℤ :=
  Int.tdiv q.num q.den

/-- Python `range(0, n, step)` for `0 ≤ n` and `0 < step`: the multiples
of `step` strictly below `n`. -/
def pyRange (n step : ℕ) : List ℕ :=
  (List.range ((n + step - 1) / step)).map (· * step)

/-- The segment windows generated by `dub_video`:
`for start_time in range(0, int(duration), segment_duration)` paired with
`end_time = min(start_time + segment_duration, duration)`.  `duration`
is the float `video.duration`; `W` is the integer `segment_duration`. -/
def windows (duration : ℚ) (W : ℕ) : List (ℚ × ℚ) :=
  (pyRange (pyTrunc duration).toNat W).map
    (fun s : ℕ => ((s : ℚ), min ((s : ℚ) + (W : ℚ)) duration))

/-- Right edge of the region the windows actually cover: the full
duration `D`, except that when `D` is fractional and `⌊D⌋` is an exact
multiple of `W` the loop stops at `⌊D⌋` and the final fractional part of
the video is never covered (in particular no window at all when
`D < 1`). -/
def coveredEnd (D : ℚ) (W : ℕ) : ℚ :=
  if (pyTrunc D).toNat % W = 0 ∧ ((pyTrunc D).toNat : ℚ) < D
  then ((pyTrunc D).toNat : ℚ) else D

/-! ### Arithmetic helpers for the partition -/

/-- On nonnegative rationals, Python truncation agrees with the floor. -/
theorem pyTrunc_eq_floor (q : ℚ) (hq : 0 ≤ q) : pyTrunc q = ⌊q⌋ := by
  rw [Rat.floor_def, pyTrunc]
  exact Int.tdiv_eq_ediv (Rat.num_nonneg.mpr hq) (Int.ofNat_nonneg q.den)

/-- Basic bounds for the ceiling division `(n + W - 1) / W` used as the
window count. -/
theorem ceilDiv_bounds (n W : ℕ) (hW : 0 < W) :
    n ≤ ((n + W - 1) / W) * W ∧
    (0 < n → ((n + W - 1) / W - 1) * W ≤ n - 1) ∧
    (0 < n → n % W = 0 → ((n + W - 1) / W) * W = n) ∧
    (0 < (n + W - 1) / W ↔ 0 < n) := by
  rcases Nat.eq_zero_or_pos n with h0 | hn
  · subst h0
    have : (W - 1) / W = 0 := Nat.div_eq_of_lt (by omega)
    simp [this]
  · have hrw : n + W - 1 = (n - 1) + W := by omega
    rw [hrw, Nat.add_div_right _ hW]
    obtain ⟨q, hq⟩ : ∃ q, (n - 1) / W = q := ⟨_, rfl⟩
    rw [hq]
    have hdm := Nat.div_add_mod (n - 1) W
    rw [hq] at hdm
    have hr : (n - 1) % W < W := Nat.mod_lt _ hW
    have e1 : (q + 1) * W = W * q + W := by ring
    have e2 : (q + 1 - 1) * W = W * q := by simp [Nat.mul_comm]
    refine ⟨?_, ?_, ?_, ?_⟩
    · rw [e1]; omega
    · intro _; rw [e2]; omega
    · intro _ hmod
      rw [e1]
      obtain ⟨m, hm⟩ : W ∣ n := Nat.dvd_of_mod_eq_zero hmod
      have hq_lt : q < m := by
        by_contra hcon
        push_neg at hcon
        have := Nat.mul_le_mul_left W hcon
        omega
      have hm_le : m ≤ q + 1 := by
        by_contra hcon
        push_neg at hcon
        have hcon2 : q + 2 ≤ m := hcon
        have := Nat.mul_le_mul_left W hcon2
        have e3 : W * (q + 2) = W * q + W + W := by ring
        omega
      have hmq : m = q + 1 := by omega
      rw [hm, hmq]
      ring
    · omega

/-- Truncation of a nonnegative rational brackets it within one unit. -/
theorem trunc_facts (D : ℚ) (hD : 0 ≤ D) :
    ((pyTrunc D).toNat : ℚ) ≤ D ∧ D < ((pyTrunc D).toNat : ℚ) + 1 := by
  have h0 : 0 ≤ ⌊D⌋ := Int.floor_nonneg.mpr hD
  have ht : pyTrunc D = ⌊D⌋ := pyTrunc_eq_floor D hD
  have hcast : (((pyTrunc D).toNat : ℕ) : ℚ) = ((⌊D⌋ : ℤ) : ℚ) := by
    rw [ht]
    exact_mod_cast congrArg (fun z : ℤ => (z : ℚ)) (Int.toNat_of_nonneg h0)
  rw [hcast]
  exact ⟨Int.floor_le D, Int.lt_floor_add_one D⟩

/-- Index-wise description of the generated windows. -/
theorem windows_getElem (D : ℚ) (W j : ℕ) :
    (windows D W)[j]? =
      if j < ((pyTrunc D).toNat + W - 1) / W
      then some (((j * W : ℕ) : ℚ), min (((j * W : ℕ) : ℚ) + (W : ℚ)) D)
      else none := by
  rw [windows, pyRange, List.getElem?_map, List.getElem?_map]
  by_cases hj : j < ((pyTrunc D).toNat + W - 1) / W
  · rw [List.getElem?_range hj, if_pos hj]
    simp [Nat.mul_comm]
  · rw [List.getElem?_eq_none (by simpa using Nat.le_of_not_lt hj), if_neg hj]
    rfl

/-- Number of generated windows. -/
theorem windows_length (D : ℚ) (W : ℕ) :
    (windows D W).length = ((pyTrunc D).toNat + W - 1) / W := by
  rw [windows, pyRange, List.length_map, List.length_map, List.length_range]

/-- Destructor for a successfully indexed window. -/
theorem windows_getElem_some (D : ℚ) (W j : ℕ) (v : ℚ × ℚ)
    (h : (windows D W)[j]? = some v) :
    j < ((pyTrunc D).toNat + W - 1) / W ∧
    v = (((j * W : ℕ) : ℚ), min (((j * W : ℕ) : ℚ) + (W : ℚ)) D) := by
  rw [windows_getElem] at h
  by_cases hj : j < ((pyTrunc D).toNat + W - 1) / W
  · rw [if_pos hj] at h
    exact ⟨hj, (Option.some_inj.mp h).symm⟩
  · rw [if_neg hj] at h
    cases h

/-- Helper: `pyTrunc (19/2) = 9`. -/
theorem pyTrunc_nineteen_halves : pyTrunc (19 / 2 : ℚ) = 9 := by
  have hnum : ((19 : ℚ) / 2).num = 19 := by norm_num
  have hden : ((19 : ℚ) / 2).den = 2 := by norm_num
  rw [pyTrunc, hnum, hden]
  decide

/-- The windows generated for duration 9.5 and window size 3. -/
theorem windows_nineteen_halves :
    windows (19 / 2) 3 = [(0, 3), (3, 6), (6, 9)] := by
  rw [windows, pyTrunc_nineteen_halves]
  rw [pyRange, show ((Int.toNat 9 + 3 - 1) / 3) = 3 from rfl,
    show List.range 3 = [0, 1, 2] from rfl]
  norm_num [min_def]

/-- Claim C4, counterexample.  `video.duration` is a float: for the
positive duration `D = 9.5` and window size `W = 3`, the generated
windows are `[(0,3), (3,6), (6,9)]` — `range(0, int(9.5), 3)` stops at
`int(D) = 9`, which is a multiple of `W`, so the final `[9, 9.5)` slice
of the video is not covered by any window (the point `9.25 ∈ [0, D)` is
uncovered), refuting "the windows cover `[0, D)` exactly" for every
positive duration. -/
theorem claim4_counterexample :
    ((0 : ℚ) < 19 / 2) ∧
    windows (19 / 2) 3 = [(0, 3), (3, 6), (6, 9)] ∧
    ((0 : ℚ) ≤ 37 / 4 ∧ (37 / 4 : ℚ) < 19 / 2) ∧
    ¬ (∃ w ∈ windows (19 / 2) 3, w.1 ≤ (37 / 4 : ℚ) ∧ (37 / 4 : ℚ) < w.2) := by
  refine ⟨by norm_num, windows_nineteen_halves, by norm_num, ?_⟩
  rw [windows_nineteen_halves]
  norm_num

/-- Claim C4, amended.  For every positive duration `D` and window size
`W > 0`: the windows are contiguous, each window except the last has
length exactly `W`, the first window starts at 0, every window is
non-degenerate, and the windows cover exactly `[0, coveredEnd D W)`,
where `coveredEnd D W = D` unless `D` is fractional and `⌊D⌋` is an
exact multiple of `W`, in which case coverage stops at `⌊D⌋` and the
final fractional part of the video is never processed (for `D < 1` there
are no windows at all). -/
theorem claim4_amended (D : ℚ) (W : ℕ) (hD : 0 < D) (hW : 0 < W) :
    (∀ (j : ℕ) (v w : ℚ × ℚ), (windows D W)[j]? = some v →
      (windows D W)[j + 1]? = some w → v.2 = w.1 ∧ v.2 - v.1 = (W : ℚ)) ∧
    (∀ v : ℚ × ℚ, (windows D W)[0]? = some v → v.1 = 0) ∧
    (∀ (j : ℕ) (v : ℚ × ℚ), (windows D W)[j]? = some v →
      0 ≤ v.1 ∧ v.1 < v.2 ∧ v.2 ≤ coveredEnd D W) ∧
    (∀ (j : ℕ) (v : ℚ × ℚ), (windows D W)[j]? = some v →
      (windows D W)[j + 1]? = none → v.2 = coveredEnd D W) ∧
    (∀ t : ℚ, 0 ≤ t → t < coveredEnd D W →
      ∃ w ∈ windows D W, w.1 ≤ t ∧ t < w.2) ∧
    coveredEnd D W ≤ D ∧
    (coveredEnd D W = D ∨
      (coveredEnd D W = ((pyTrunc D).toNat : ℚ) ∧ ((pyTrunc D).toNat : ℚ) < D ∧
        (pyTrunc D).toNat % W = 0)) := by
  obtain ⟨n, hn⟩ : ∃ n, (pyTrunc D).toNat = n := ⟨_, rfl⟩
  obtain ⟨k, hk⟩ : ∃ k, (n + W - 1) / W = k := ⟨_, rfl⟩
  obtain ⟨hF1, hF2, hF3, hF4⟩ := ceilDiv_bounds n W hW
  rw [hk] at hF1 hF2 hF3 hF4
  obtain ⟨hnD, hDn1⟩ := trunc_facts D hD.le
  rw [hn] at hnD hDn1
  have hcov : coveredEnd D W = if n % W = 0 ∧ ((n : ℕ) : ℚ) < D
      then ((n : ℕ) : ℚ) else D := by
    rw [coveredEnd, hn]
  have hcovD : coveredEnd D W ≤ D := by
    rw [hcov]
    by_cases hc : n % W = 0 ∧ ((n : ℕ) : ℚ) < D
    · rw [if_pos hc]; exact hnD
    · rw [if_neg hc]
  have hlook : ∀ (j : ℕ) (v : ℚ × ℚ), (windows D W)[j]? = some v →
      j < k ∧ v = (((j * W : ℕ) : ℚ), min (((j * W : ℕ) : ℚ) + (W : ℚ)) D) := by
    intro j v h
    have := windows_getElem_some D W j v h
    rw [hn, hk] at this
    exact this
  have hnonelook : ∀ j : ℕ, (windows D W)[j]? = none → k ≤ j := by
    intro j h
    by_contra hcon
    push_neg at hcon
    have hlen : j < (windows D W).length := by
      rw [windows_length, hn, hk]
      exact hcon
    rw [List.getElem?_eq_getElem hlen] at h
    cases h
  -- length-W bound for any non-last window
  have hmid : ∀ j : ℕ, j + 1 < k → ((j : ℚ) + 1) * (W : ℚ) ≤ D := by
    intro j hj
    have hn0 : 0 < n := hF4.mp (by omega)
    have h1 : (j + 1) * W ≤ (k - 1) * W := Nat.mul_le_mul_right W (by omega)
    have h2 : (j + 1) * W ≤ n - 1 := le_trans h1 (hF2 hn0)
    have h3 : ((j : ℚ) + 1) * (W : ℚ) ≤ ((n : ℚ)) - 1 := by
      have h4 := (Nat.cast_le (α := ℚ)).mpr h2
      rw [Nat.cast_sub (by omega : 1 ≤ n)] at h4
      push_cast at h4 ⊢
      linarith
    linarith
  refine ⟨?_, ?_, ?_, ?_, ?_, hcovD, ?_⟩
  · -- contiguity and non-last window length
    intro j v w hv hw
    obtain ⟨hjk, hveq⟩ := hlook j v hv
    obtain ⟨hj1k, hweq⟩ := hlook (j + 1) w hw
    have hle : ((j * W : ℕ) : ℚ) + (W : ℚ) ≤ D := by
      have := hmid j hj1k
      push_cast
      push_cast at this
      linarith
    have hmin : min (((j * W : ℕ) : ℚ) + (W : ℚ)) D = ((j * W : ℕ) : ℚ) + (W : ℚ) :=
      min_eq_left hle
    constructor
    · rw [hveq, hweq]
      show min (((j * W : ℕ) : ℚ) + (W : ℚ)) D = (((j + 1) * W : ℕ) : ℚ)
      rw [hmin]
      push_cast
      ring
    · rw [hveq]
      show min (((j * W : ℕ) : ℚ) + (W : ℚ)) D - ((j * W : ℕ) : ℚ) = (W : ℚ)
      rw [hmin]
      ring
  · -- first window starts at 0
    intro v hv
    obtain ⟨_, hveq⟩ := hlook 0 v hv
    rw [hveq]
    show ((0 * W : ℕ) : ℚ) = 0
    norm_num
  · -- each window is nondegenerate and inside [0, coveredEnd)
    intro j v hv
    obtain ⟨hjk, hveq⟩ := hlook j v hv
    have hn0 : 0 < n := hF4.mp (by omega)
    have hjWn : j * W ≤ n - 1 := by
      have h1 : j * W ≤ (k - 1) * W := Nat.mul_le_mul_right W (by omega)
      exact le_trans h1 (hF2 hn0)
    have hjWD : ((j * W : ℕ) : ℚ) < D := by
      have h2 : ((j * W : ℕ) : ℚ) ≤ ((n : ℚ)) - 1 := by
        have h4 := (Nat.cast_le (α := ℚ)).mpr hjWn
        rw [Nat.cast_sub (by omega : 1 ≤ n)] at h4
        push_cast at h4 ⊢
        linarith
      linarith
    refine ⟨?_, ?_, ?_⟩
    · rw [hveq]; exact Nat.cast_nonneg _
    · rw [hveq]
      refine lt_min ?_ hjWD
      have : (0 : ℚ) < (W : ℚ) := by exact_mod_cast hW
      linarith
    · rw [hveq]
      show min (((j * W : ℕ) : ℚ) + (W : ℚ)) D ≤ coveredEnd D W
      rw [hcov]
      by_cases hc : n % W = 0 ∧ ((n : ℕ) : ℚ) < D
      · rw [if_pos hc]
        have hkWn : k * W = n := hF3 hn0 hc.1
        have h1 : (j + 1) * W ≤ k * W := Nat.mul_le_mul_right W (by omega)
        have h2 : ((j * W : ℕ) : ℚ) + (W : ℚ) ≤ ((n : ℕ) : ℚ) := by
          have h5 := (Nat.cast_le (α := ℚ)).mpr (hkWn ▸ h1)
          push_cast at h5 ⊢
          linarith
        exact le_trans (min_le_left _ _) h2
      · rw [if_neg hc]
        exact min_le_right _ _
  · -- the last window ends exactly at coveredEnd
    intro j v hv hnone
    obtain ⟨hjk, hveq⟩ := hlook j v hv
    have hkj : k = j + 1 := by
      have := hnonelook (j + 1) hnone
      omega
    have hn0 : 0 < n := hF4.mp (by omega)
    rw [hveq]
    show min (((j * W : ℕ) : ℚ) + (W : ℚ)) D = coveredEnd D W
    have hcast : (((j * W : ℕ) : ℚ)) + (W : ℚ) = ((k * W : ℕ) : ℚ) := by
      rw [hkj]
      push_cast
      ring
    rw [hcov]
    by_cases hc : n % W = 0 ∧ ((n : ℕ) : ℚ) < D
    · rw [if_pos hc]
      have hkWn : k * W = n := hF3 hn0 hc.1
      rw [hcast, hkWn]
      exact min_eq_left hnD
    · rw [if_neg hc]
      rcases Decidable.not_and_iff_or_not.mp hc with hmod | hDn
      · -- ⌊D⌋ not a multiple of W: k*W ≥ n+1 > D, so the last end is D
        have hne : k * W ≠ n := by
          intro heq
          exact hmod (by rw [← heq]; exact Nat.mul_mod_left k W)
        have hge : n + 1 ≤ k * W := by omega
        have hDkW : D ≤ ((k * W : ℕ) : ℚ) := by
          have h5 := (Nat.cast_le (α := ℚ)).mpr hge
          push_cast at h5 ⊢
          linarith
        rw [hcast]
        exact min_eq_right hDkW
      · -- D = ⌊D⌋ (integral duration): k*W ≥ n = D
        have hDn' : D ≤ ((n : ℕ) : ℚ) := not_lt.mp hDn
        have hDkW : D ≤ ((k * W : ℕ) : ℚ) := by
          have h5 := (Nat.cast_le (α := ℚ)).mpr hF1
          push_cast at h5 ⊢
          linarith
        rw [hcast]
        exact min_eq_right hDkW
  · -- coverage of [0, coveredEnd)
    intro t ht htcov
    obtain ⟨hmt, htm1⟩ := trunc_facts t ht
    obtain ⟨m, hm⟩ : ∃ m, (pyTrunc t).toNat = m := ⟨_, rfl⟩
    rw [hm] at hmt htm1
    obtain ⟨j, hj⟩ : ∃ j, m / W = j := ⟨_, rfl⟩
    have hjm : j * W ≤ m := by
      rw [← hj]
      exact Nat.div_mul_le_self m W
    have hmjW : m < j * W + W := by
      have hdm := Nat.div_add_mod m W
      have hmod := Nat.mod_lt m hW
      have e : j * W = W * (m / W) := by rw [← hj, Nat.mul_comm]
      omega
    have hmn : m ≤ n := by
      have h1 : t < ((n : ℕ) : ℚ) + 1 := lt_of_lt_of_le htcov (by linarith)
      have h2 : ((m : ℕ) : ℚ) < ((n : ℕ) : ℚ) + 1 := lt_of_le_of_lt hmt h1
      have h3 : (m : ℚ) < ((n + 1 : ℕ) : ℚ) := by push_cast at h2 ⊢; linarith
      have h4 : m < n + 1 := by exact_mod_cast h3
      omega
    have hjk : j < k := by
      have hjWlt : j * W < k * W → j < k := fun h =>
        lt_of_mul_lt_mul_right h (Nat.zero_le W)
      apply hjWlt
      rw [hcov] at htcov
      by_cases hc : n % W = 0 ∧ ((n : ℕ) : ℚ) < D
      · rw [if_pos hc] at htcov
        have hmn' : m < n := by
          have h6 : ((m : ℕ) : ℚ) < ((n : ℕ) : ℚ) := lt_of_le_of_lt hmt htcov
          exact_mod_cast h6
        omega
      · rw [if_neg hc] at htcov
        rcases Nat.lt_or_ge m n with hlt | hge
        · omega
        · have hmeq : m = n := by omega
          rcases Decidable.not_and_iff_or_not.mp hc with hmod | hDn
          · have hdm := Nat.div_add_mod n W
            have hmod2 := Nat.mod_lt n hW
            have hjW : j * W = W * (n / W) := by rw [← hj, hmeq, Nat.mul_comm]
            omega
          · exfalso
            have hDn' : D ≤ ((n : ℕ) : ℚ) := not_lt.mp hDn
            have h7 : t < ((n : ℕ) : ℚ) := lt_of_lt_of_le htcov hDn'
            have h8 : m < n := by exact_mod_cast lt_of_le_of_lt hmt h7
            omega
    refine ⟨(((j * W : ℕ) : ℚ), min (((j * W : ℕ) : ℚ) + (W : ℚ)) D), ?_, ?_, ?_⟩
    · show _ ∈ windows D W
      rw [windows, pyRange, hn, hk]
      exact List.mem_map_of_mem _ (List.mem_map_of_mem _ (List.mem_range.mpr hjk))
    · show ((j * W : ℕ) : ℚ) ≤ t
      have h1 : ((j * W : ℕ) : ℚ) ≤ ((m : ℕ) : ℚ) := (Nat.cast_le (α := ℚ)).mpr hjm
      linarith
    · show t < min (((j * W : ℕ) : ℚ) + (W : ℚ)) D
      refine lt_min ?_ (lt_of_lt_of_le htcov hcovD)
      have h1 : ((m : ℕ) : ℚ) + 1 ≤ ((j * W : ℕ) : ℚ) + (W : ℚ) := by
        have h9 := (Nat.cast_le (α := ℚ)).mpr hmjW
        push_cast at h9 ⊢
        linarith
      linarith
  · -- characterization of coveredEnd
    rw [hcov, hn]
    by_cases hc : n % W = 0 ∧ ((n : ℕ) : ℚ) < D
    · rw [if_pos hc]
      exact Or.inr ⟨rfl, hc.2, hc.1⟩
    · rw [if_neg hc]
      exact Or.inl rfl

/-- Witness for claim C4 (amended): an integral duration of 7 with
window size 3 covers everything — `coveredEnd 7 3 = 7`. -/
theorem claim4_amended_witness :
    coveredEnd 7 3 = 7 ∨
      (coveredEnd 7 3 = ((pyTrunc 7).toNat : ℚ) ∧ ((pyTrunc 7).toNat : ℚ) < 7 ∧
        (pyTrunc 7).toNat % 3 = 0) :=
  (claim4_amended 7 3 (by norm_num) (by norm_num)).2.2.2.2.2.2

/-! ### Segment keys (`VideoDubber.dub_video`, video_dubber.py line 240) -/

/-- A Python number as it appears in an f-string: either an `int` or a
`float`.  Python renders an `int` as its plain digits, while `str()` of a
`float` always contains a decimal point or an exponent (an integral float
renders as e.g. `700.0`), so the constructor alone determines whether the
rendered key component looks like a plain integer. -/
inductive PyNum where
  | int (n : ℤ)
  | float (q : ℚ)
deriving DecidableEq

/-- Numeric value of a Python number (float values are exact here; every
concrete value we use is exactly representable). -/
def PyNum.val : PyNum → ℚ
  | .int n => (n : ℚ)
  | .float q => q

/-- Whether the number is an `int` (and hence renders without a decimal
point in the segment key). -/
def PyNum.isInt : PyNum → Bool
  | .int _ => true
  | .float _ => false

/-- Python `min(a, b)`: returns the *first* argument unless the second is
strictly smaller, preserving its type. -/
def pyMin (a b : PyNum) : PyNum :=
  if b.val < a.val then b else a

/-- The `(start_time, end_time)` pair interpolated into
`segment_key = f"segment_{start_time}_{end_time}"`: `start_time` is the
loop's `int`, `end_time = min(start_time + segment_duration, duration)`
mixes the `int` `start_time + W` with the `float` `duration`. -/
def segKey (W : ℕ) (D : ℚ) (s : ℕ) : PyNum × PyNum :=
  (PyNum.int (s : ℤ), pyMin (PyNum.int ((s : ℤ) + (W : ℤ))) (PyNum.float D))

/-- All segment keys produced by the window loop of `dub_video`. -/
def segmentKeys (D : ℚ) (W : ℕ) : List (PyNum × PyNum) :=
  (pyRange (pyTrunc D).toNat W).map (segKey W D)

/-- Claim C6, counterexample.  For a 700-second video (`video.duration`
is the float `700.0`) and `segment_duration = 300`, the loop generates
keys for starts 0, 300, 600; the last window's `end_time` is
`min(900, 700.0) = 700.0`, a *float*, so the last key renders as
`segment_600_700.0` — not of the form `segment_<int>_<int>` with
integer-truncated offsets.  (`validate_progress` works around this by
parsing with `int(float(...))`, video_dubber.py line 146.) -/
theorem claim6_counterexample :
    segmentKeys 700 300
      = [(PyNum.int 0, PyNum.int 300), (PyNum.int 300, PyNum.int 600),
         (PyNum.int 600, PyNum.float 700)] ∧
    ¬ ((segmentKeys 700 300).all (fun kv => kv.1.isInt && kv.2.isInt)) := by
  have h700 : pyTrunc (700 : ℚ) = 700 := by
    have hnum : ((700 : ℚ)).num = 700 := by norm_num
    have hden : ((700 : ℚ)).den = 1 := by norm_num
    rw [pyTrunc, hnum, hden]
    decide
  have hkeys : segmentKeys 700 300
      = [(PyNum.int 0, PyNum.int 300), (PyNum.int 300, PyNum.int 600),
         (PyNum.int 600, PyNum.float 700)] := by
    rw [segmentKeys, h700]
    rw [pyRange, show ((Int.toNat 700 + 300 - 1) / 300) = 3 from rfl,
      show List.range 3 = [0, 1, 2] from rfl]
    simp only [List.map_cons, List.map_nil, segKey, pyMin, PyNum.val]
    norm_num
  refine ⟨hkeys, ?_⟩
  rw [hkeys]
  simp [PyNum.isInt]

/-- Claim C6, amended.  Every segment key has the structured form
`segment_<start>_<end>` where `start` is the window's integer start
offset; `end` is the integer `start + W` whenever `start + W ≤ duration`
(so for every non-final window, and also for the final window when its
`start + W` still lands at or below the duration, as happens when
`int(D)` is an exact multiple of `W`); but when `start + W` exceeds the
duration — the final window of e.g. a 700-second video with `W = 300` —
`end` is the *float* duration itself, rendered with a decimal point
rather than truncated to an integer.  The key values agree numerically
with the corresponding window bounds. -/
theorem claim6_amended (D : ℚ) (W : ℕ) (j : ℕ) (s e : PyNum)
    (h : (segmentKeys D W)[j]? = some (s, e)) :
    s = PyNum.int ((j * W : ℕ) : ℤ) ∧
    ((((j * W : ℕ) : ℚ) + (W : ℚ) ≤ D → e = PyNum.int (((j * W : ℕ) : ℤ) + (W : ℤ))) ∧
     (D < ((j * W : ℕ) : ℚ) + (W : ℚ) → e = PyNum.float D)) ∧
    (windows D W)[j]? = some (s.val, e.val) := by
  have hlen : j < ((pyTrunc D).toNat + W - 1) / W := by
    by_contra hcon
    rw [segmentKeys, List.getElem?_map] at h
    rw [pyRange, List.getElem?_map, List.getElem?_eq_none
      (by simpa using Nat.le_of_not_lt hcon)] at h
    cases h
  have hval : segKey W D (j * W) = (s, e) := by
    rw [segmentKeys, List.getElem?_map, pyRange, List.getElem?_map,
      List.getElem?_range hlen] at h
    simpa using h
  rw [segKey] at hval
  have hs : s = PyNum.int ((j * W : ℕ) : ℤ) := by
    have := congrArg Prod.fst hval
    simpa using this.symm
  have he : e = pyMin (PyNum.int (((j * W : ℕ) : ℤ) + (W : ℤ))) (PyNum.float D) := by
    have := congrArg Prod.snd hval
    simpa using this.symm
  have hcast : ((PyNum.int (((j * W : ℕ) : ℤ) + (W : ℤ))).val : ℚ)
      = ((j * W : ℕ) : ℚ) + (W : ℚ) := by
    simp [PyNum.val]
  refine ⟨hs, ⟨?_, ?_⟩, ?_⟩
  · intro hle
    rw [he, pyMin, if_neg]
    rw [hcast, PyNum.val]
    exact not_lt.mpr hle
  · intro hlt
    rw [he, pyMin, if_pos]
    rw [hcast, PyNum.val]
    exact hlt
  · have heval : e.val = min (((j * W : ℕ) : ℚ) + (W : ℚ)) D := by
      by_cases hc : D < ((j * W : ℕ) : ℚ) + (W : ℚ)
      · rw [he, pyMin, if_pos (by rw [hcast, PyNum.val]; exact hc), PyNum.val,
          min_eq_right (le_of_lt hc)]
      · push_neg at hc
        rw [he, pyMin, if_neg (by rw [hcast, PyNum.val]; exact not_lt.mpr hc), hcast,
          min_eq_left hc]
    rw [windows_getElem, if_pos hlen, hs, heval]
    simp [PyNum.val]

/-- Witness for claim C6 (amended): the last key of the 700-second run
matches its window numerically. -/
theorem claim6_amended_witness :
    (windows 700 300)[2]? = some ((PyNum.int 600).val, (PyNum.float 700).val) :=
  (claim6_amended 700 300 2 (PyNum.int 600) (PyNum.float 700) (by decide)).2.2

/-! ### The segment loop and final concatenation of `dub_video`
(video_dubber.py lines 237-312) -/

/-- Lookup in the progress ledger (a Python dict, modelled as an
association list in insertion order; keys are the structured segment-key
pairs, whose f-string renderings are injective). -/
def lookupA {K V : Type} [DecidableEq K] : List (K × V) → K → Option V
  | [], _ => none
  | kv :: rest, k => if kv.1 = k then some kv.2 else lookupA rest k

/-- The items iterated by the segment loop: each window start together
with its segment key. -/
def dubItems (D : ℚ) (W : ℕ) : List (ℕ × (PyNum × PyNum)) :=
  (pyRange (pyTrunc D).toNat W).map (fun s => (s, segKey W D s))

/-- One iteration of the segment loop (video_dubber.py lines 238-257),
on the state `(dubbed_segments, progress)`.  `fresh s` models
`process_segment` for the window starting at `s`: `some out` on success,
`none` when the segment fails and returns `None`.  A ledger hit reuses
the stored output; a fresh success appends to both `dubbed_segments` and
the ledger; a failure changes nothing (the loop just moves on). -/
def dubStep (fresh : ℕ → Option String)
    (st : List String × List ((PyNum × PyNum) × String))
    (it : ℕ × (PyNum × PyNum)) :
    List String × List ((PyNum × PyNum) × String) :=
  match lookupA st.2 it.2 with
  | some out => (st.1 ++ [out], st.2)
  | none =>
    match fresh it.1 with
    | some out => (st.1 ++ [out], st.2 ++ [(it.2, out)])
    | none => (st.1, st.2)

/-- The whole segment loop, starting from an empty `dubbed_segments` and
the validated ledger `p0`. -/
def dubLoop (fresh : ℕ → Option String) (items : List (ℕ × (PyNum × PyNum)))
    (p0 : List ((PyNum × PyNum) × String)) :
    List String × List ((PyNum × PyNum) × String) :=
  items.foldl (dubStep fresh) ([], p0)

/-- What one window resolves to against the *initial* ledger: the ledger
entry if present, otherwise a fresh `process_segment` result. -/
def resolveSeg (p0 : List ((PyNum × PyNum) × String)) (fresh : ℕ → Option String)
    (it : ℕ × (PyNum × PyNum)) : Option String :=
  match lookupA p0 it.2 with
  | some out => some out
  | none => fresh it.1

/-- The tail of `dub_video` after the loop (video_dubber.py lines
260-312): `if dubbed_segments:` invoke the ffmpeg concatenation on the
collected outputs (first component `true`), `else` raise
`RuntimeError("No segments were successfully processed")` (first
component `false`, no concatenation). -/
def dub_video_concat (fresh : ℕ → Option String) (D : ℚ) (W : ℕ)
    (p0 : List ((PyNum × PyNum) × String)) : Bool × List String :=
  let dubbed := (dubLoop fresh (dubItems D W) p0).1
  if dubbed.isEmpty then (false, []) else (true, dubbed)

/-- Appending a binding for an absent key does not affect lookups of
other keys. -/
theorem lookupA_append_of_ne {K V : Type} [DecidableEq K]
    (p : List (K × V)) (k kNew : K) (v : V) (h : k ≠ kNew) :
    lookupA (p ++ [(kNew, v)]) k = lookupA p k := by
  induction p with
  | nil =>
      simp only [List.nil_append, lookupA]
      rw [if_neg (show ¬kNew = k from fun he => h he.symm)]
  | cons kv rest ih =>
      by_cases hkv : kv.1 = k <;> simp [lookupA, hkv, ih]

/-- `filterMap` only depends on the function's values on the list. -/
theorem filterMap_congr_mem {α β : Type} (l : List α) (f g : α → Option β)
    (h : ∀ x ∈ l, f x = g x) : l.filterMap f = l.filterMap g := by
  induction l with
  | nil => rfl
  | cons a rest ih =>
      rw [List.filterMap_cons, List.filterMap_cons, h a (by simp),
        ih (fun x hx => h x (by simp [hx]))]

/-- The segment loop collects exactly the windows that resolve against
the initial ledger, in window order — provided the keys are distinct (as
the partition guarantees), since a fresh success only inserts its own
key into the ledger. -/
theorem dubLoop_eq (fresh : ℕ → Option String) :
    ∀ (items : List (ℕ × (PyNum × PyNum)))
      (p : List ((PyNum × PyNum) × String)) (acc : List String),
      (items.map (fun it => it.2)).Nodup →
      (items.foldl (dubStep fresh) (acc, p)).1
        = acc ++ items.filterMap (resolveSeg p fresh) := by
  intro items
  induction items with
  | nil => intro p acc _; simp
  | cons it rest ih =>
      intro p acc hnd
      rw [List.map_cons, List.nodup_cons] at hnd
      obtain ⟨hmem, hnd'⟩ := hnd
      rw [List.foldl_cons, List.filterMap_cons]
      cases hl : lookupA p it.2 with
      | some out =>
          have hstep : dubStep fresh (acc, p) it = (acc ++ [out], p) := by
            simp [dubStep, hl]
          rw [hstep, ih p (acc ++ [out]) hnd']
          simp [resolveSeg, hl]
      | none =>
          cases hf : fresh it.1 with
          | some out =>
              have hstep : dubStep fresh (acc, p) it
                  = (acc ++ [out], p ++ [(it.2, out)]) := by
                simp [dubStep, hl, hf]
              rw [hstep, ih (p ++ [(it.2, out)]) (acc ++ [out]) hnd']
              have hsame : rest.filterMap (resolveSeg (p ++ [(it.2, out)]) fresh)
                  = rest.filterMap (resolveSeg p fresh) := by
                apply filterMap_congr_mem
                intro x hx
                have hne : x.2 ≠ it.2 := by
                  intro he
                  exact hmem (he ▸ List.mem_map_of_mem (fun it => it.2) hx)
                rw [resolveSeg, resolveSeg, lookupA_append_of_ne p x.2 it.2 out hne]
              rw [hsame]
              simp [resolveSeg, hl, hf]
          | none =>
              have hstep : dubStep fresh (acc, p) it = (acc, p) := by
                simp [dubStep, hl, hf]
              rw [hstep, ih p acc hnd']
              simp [resolveSeg, hl, hf]

/-- The segment keys of a partition are pairwise distinct (their starts
are distinct multiples of `W`). -/
theorem dubItems_keys_nodup (D : ℚ) (W : ℕ) (hW : 0 < W) :
    ((dubItems D W).map (fun it => it.2)).Nodup := by
  rw [dubItems, List.map_map, pyRange, List.map_map]
  apply List.Nodup.map ?_ (List.nodup_range _)
  intro a b hab
  have h1 : segKey W D (a * W) = segKey W D (b * W) := hab
  have h2 : ((a * W : ℕ) : ℤ) = ((b * W : ℕ) : ℤ) := by
    have := congrArg (fun kv : PyNum × PyNum => kv.1) h1
    simpa [segKey] using this
  have h3 : a * W = b * W := by exact_mod_cast h2
  exact Nat.eq_of_mul_eq_mul_right hW h3

/-- Claim C2, counterexample.  Duration 2.0, window size 1, empty
ledger: the first window `[0,1)` fails (`process_segment` returns
`None`) while the second succeeds.  `dubbed_segments` is non-empty, so
`dub_video` happily proceeds to concatenation with a *single* segment
out of two windows — a partial final video is produced even though a
window has no output, refuting "the run fails before concatenation
whenever at least one window lacks an output". -/
theorem claim2_counterexample :
    (fun s : ℕ => if s = 1 then some "seg1.mp4" else none) 0 = none ∧
    (dubItems 2 1).length = 2 ∧
    dub_video_concat (fun s => if s = 1 then some "seg1.mp4" else none) 2 1 []
      = (true, ["seg1.mp4"]) := by
  refine ⟨rfl, by decide, by decide⟩

/-- Claim C2, amended.  The run fails before concatenation (raising
"No segments were successfully processed") exactly when *no* window
resolves to an output — neither from the ledger nor as a fresh success;
whenever at least one window resolves, concatenation is invoked with
precisely the resolved outputs in window order, which may be a strict
subset of the windows (an incomplete segment set is not detected). -/
theorem claim2_amended (D : ℚ) (W : ℕ) (hW : 0 < W)
    (fresh : ℕ → Option String) (p0 : List ((PyNum × PyNum) × String)) :
    ((dub_video_concat fresh D W p0).1 = true
      ↔ (dubItems D W).filterMap (resolveSeg p0 fresh) ≠ []) ∧
    ((dub_video_concat fresh D W p0).1 = true
      → (dub_video_concat fresh D W p0).2
        = (dubItems D W).filterMap (resolveSeg p0 fresh)) ∧
    ((dub_video_concat fresh D W p0).1 = false
      → (dub_video_concat fresh D W p0).2 = []) := by
  have hfold : (dubLoop fresh (dubItems D W) p0).1
      = (dubItems D W).filterMap (resolveSeg p0 fresh) := by
    rw [dubLoop, dubLoop_eq fresh (dubItems D W) p0 [] (dubItems_keys_nodup D W hW)]
    simp
  by_cases he : ((dubItems D W).filterMap (resolveSeg p0 fresh)).isEmpty = true
  · have hre : dub_video_concat fresh D W p0 = (false, []) := by
      rw [dub_video_concat]
      simp only [hfold]
      rw [if_pos he]
    rw [hre]
    refine ⟨?_, ?_, ?_⟩
    · simp [List.isEmpty_iff.mp he]
    · intro h
      simp at h
    · intro _
      rfl
  · have hre : dub_video_concat fresh D W p0
        = (true, (dubItems D W).filterMap (resolveSeg p0 fresh)) := by
      rw [dub_video_concat]
      simp only [hfold]
      rw [if_neg he]
    rw [hre]
    refine ⟨?_, ?_, ?_⟩
    · exact ⟨fun _ hc => he (by rw [hc]; rfl), fun _ => rfl⟩
    · intro _
      rfl
    · intro h
      simp at h

/-- Witness for claim C2 (amended): with every window failing and an
empty ledger, the run raises instead of concatenating. -/
theorem claim2_amended_witness :
    ((dub_video_concat (fun _ => none) 2 1 []).1 = true
      ↔ (dubItems 2 1).filterMap (resolveSeg [] (fun _ => none)) ≠ []) :=
  (claim2_amended 2 1 (by decide) (fun _ => none) []).1

/-! ### Ledger validation (`VideoDubber.validate_progress`,
video_dubber.py lines 128-172) -/

/-- One ledger entry's data: the `"output"` field (`data.get("output")`
yields `None` when absent) and the `"completed"` flag. -/
structure SegData where
  output : Option String
  completed : Bool
deriving DecidableEq

/-- Python `str.split(sep)` for a one-character separator, on the
character list: splitting an empty string yields one empty field;
otherwise fields are the maximal runs between separator occurrences
(empty runs included). -/
def splitOnChar (sep : Char) : List Char → List (List Char)
  | [] => [[]]
  | c :: rest =>
      match splitOnChar sep rest with
      | [] => [[c]]
      | h :: t => if c = sep then [] :: h :: t else (c :: h) :: t

/-- Python `s.split(sep)` for a one-character separator. -/
def pySplit (sep : Char) (s : String) : List String :=
  (splitOnChar sep s.data).map String.mk

/-- Numeric value of a digit string. -/
def digitsVal (cs : List Char) : ℕ :=
  cs.foldl (fun a c => a * 10 + (c.toNat - 48)) 0

/-- Whether every character is a decimal digit. -/
def allDigits (cs : List Char) : Bool :=
  cs.all (fun c => c.isDigit)

/-- Unsigned part of Python `float(str)` on the decimal forms that can
occur inside a segment key: digits with at most one decimal point and at
least one digit (`"700"`, `"700.5"`, `".5"`, `"5."`); anything else
raises `ValueError` (modelled as `none`).  Exponent/`inf`/whitespace
forms are also `ValueError`-free in Python but cannot arise from the
f-string rendering of these numbers and stay unparsed here. -/
def parseUnsignedFloat (s : String) : Option ℚ :=
  match pySplit '.' s with
  | [ip] =>
      if ip.length != 0 && allDigits ip.data then some (digitsVal ip.data) else none
  | [ip, fp] =>
      if (ip.length + fp.length != 0) && allDigits ip.data && allDigits fp.data then
        some ((digitsVal ip.data : ℚ) + (digitsVal fp.data : ℚ) / (10 : ℚ) ^ fp.length)
      else none
  | _ => none

/-- Python `float(str)` with an optional sign. -/
def parsePyFloat (s : String) : Option ℚ :=
  match s.data with
  | [] => none
  | c :: rest =>
      if c = '-' then (parseUnsignedFloat (String.mk rest)).map (fun q => -q)
      else if c = '+' then parseUnsignedFloat (String.mk rest)
      else parseUnsignedFloat (String.mk (c :: rest))

/-- `_, start_str, end_str = segment_key.split('_')` followed by
`int(float(start_str))`, `int(float(end_str))`; any `ValueError` or
`IndexError` (wrong number of parts, unparsable number) drops the entry
(`none`). -/
def parseSegKey (key : String) : Option (ℤ × ℤ) :=
  match pySplit '_' key with
  | [_, sStr, eStr] =>
      match parsePyFloat sStr, parsePyFloat eStr with
      | some qs, some qe => some (pyTrunc qs, pyTrunc qe)
      | _, _ => none
  | _ => none

/-- `os.path.join(TEMP_DIR, "subtitles", f"<lang>_<s>_<e>.srt")`. -/
def srtPath (tempDir lang : String) (s e : ℤ) : String :=
  tempDir ++ "/subtitles/" ++ lang ++ "_" ++ toString s ++ "_" ++ toString e ++ ".srt"

/-- The per-entry check of `validate_progress`: the output path must be
truthy and exist, the key must parse, and both subtitle files must
exist; any failure drops the entry (`continue`).  `present` models
`os.path.exists`. -/
def checkEntry (present : String → Bool) (tempDir : String)
    (key : String) (data : SegData) : Bool :=
  match data.output with
  | none => false
  | some p =>
      if p = "" then false
      else if present p then
        match parseSegKey key with
        | some (s, e) =>
            present (srtPath tempDir "ru" s e) && present (srtPath tempDir "es" s e)
        | none => false
      else false

/-- `VideoDubber.validate_progress`: an empty ledger returns immediately;
otherwise the valid entries are kept (and persisted if any were
dropped).  The Python return value is `True` on every path. -/
def validate_progress (present : String → Bool) (tempDir : String)
    (progress : List (String × SegData)) : List (String × SegData) × Bool :=
  if progress.isEmpty then (progress, true)
  else (progress.filter (fun kv => checkEntry present tempDir kv.1 kv.2), true)

/-- Number of entries a `validate_progress` run drops
(`invalid_segments` in the source, printed but not returned). -/
def droppedCount (present : String → Bool) (tempDir : String)
    (progress : List (String × SegData)) : ℕ :=
  progress.length - ((validate_progress present tempDir progress).1).length

/-- Python `bool` is an `int` subclass: `int(True) = 1`, `int(False) = 0`.
This is the numeric reading of the value `validate_progress` returns. -/
def pyIntOfBool (b : Bool) : ℕ :=
  if b then 1 else 0

/-- The entry check, spelled as the spec does. -/
theorem checkEntry_iff (present : String → Bool) (tempDir key : String)
    (data : SegData) :
    checkEntry present tempDir key data = true ↔
      (∃ p, data.output = some p ∧ p ≠ "" ∧ present p = true) ∧
      (∃ s e, parseSegKey key = some (s, e) ∧
        present (srtPath tempDir "ru" s e) = true ∧
        present (srtPath tempDir "es" s e) = true) := by
  cases ho : data.output with
  | none => simp [checkEntry, ho]
  | some p =>
      by_cases hp : p = ""
      · simp [checkEntry, ho, hp]
      · by_cases hpr : present p = true
        · cases hk : parseSegKey key with
          | none => simp [checkEntry, ho, hp, hpr, hk]
          | some se =>
              obtain ⟨s, e⟩ := se
              simp [checkEntry, ho, hp, hpr, hk]
              constructor
              · rintro ⟨h1, h2⟩
                exact ⟨s, e, ⟨rfl, rfl⟩, h1, h2⟩
              · rintro ⟨s1, e1, ⟨rfl, rfl⟩, h1, h2⟩
                exact ⟨h1, h2⟩
        · simp [checkEntry, ho, hp, hpr]

/-- Claim C5, counterexample.  A two-entry ledger whose output files are
both missing: both entries are dropped (count 2), but `validate_progress`
returns `True` — numerically `1`, not the dropped-entry count `2`.  The
function never returns the count it prints. -/
theorem claim5_counterexample :
    droppedCount (fun _ => false) "w"
      [("a", { output := some "x", completed := true }),
       ("b", { output := some "y", completed := true })] = 2 ∧
    (validate_progress (fun _ => false) "w"
      [("a", { output := some "x", completed := true }),
       ("b", { output := some "y", completed := true })]).2 = true ∧
    pyIntOfBool (validate_progress (fun _ => false) "w"
      [("a", { output := some "x", completed := true }),
       ("b", { output := some "y", completed := true })]).2 ≠ 2 := by
  refine ⟨by decide, by decide, by decide⟩

/-- Claim C5, amended.  `validate_progress` keeps exactly the entries
whose truthy output path exists, whose key parses as
`segment_<start>_<end>` (floats accepted, truncated to integers), and
whose two subtitle files exist; it keeps them in order (the result is a
sublist), drops all others, and returns the constant `True` — not the
count of dropped entries. -/
theorem claim5_amended (present : String → Bool) (tempDir : String)
    (progress : List (String × SegData)) :
    (validate_progress present tempDir progress).2 = true ∧
    ((validate_progress present tempDir progress).1).Sublist progress ∧
    (∀ kv ∈ progress, (kv ∈ (validate_progress present tempDir progress).1 ↔
      (∃ p, kv.2.output = some p ∧ p ≠ "" ∧ present p = true) ∧
      (∃ s e, parseSegKey kv.1 = some (s, e) ∧
        present (srtPath tempDir "ru" s e) = true ∧
        present (srtPath tempDir "es" s e) = true))) := by
  by_cases hemp : progress.isEmpty
  · have h0 : progress = [] := List.isEmpty_iff.mp hemp
    subst h0
    refine ⟨rfl, List.Sublist.refl _, ?_⟩
    intro kv hkv
    cases hkv
  · have hre : validate_progress present tempDir progress
        = (progress.filter (fun kv => checkEntry present tempDir kv.1 kv.2), true) := by
      rw [validate_progress, if_neg hemp]
    rw [hre]
    refine ⟨rfl, List.filter_sublist _, ?_⟩
    intro kv hkv
    rw [List.mem_filter]
    rw [← checkEntry_iff present tempDir kv.1 kv.2]
    simp [hkv]

/-- Witness for claim C5 (amended): a well-formed entry with all files
present is kept. -/
theorem claim5_amended_witness :
    ("segment_0_300", ({ output := some "out.mp4", completed := true } : SegData))
      ∈ (validate_progress (fun _ => true) "w"
        [("segment_0_300", { output := some "out.mp4", completed := true })]).1 :=
  ((claim5_amended (fun _ => true) "w"
      [("segment_0_300", { output := some "out.mp4", completed := true })]).2.2
    _ (by simp)).mpr
    ⟨⟨"out.mp4", rfl, by decide, rfl⟩, 0, 300, by decide, rfl, rfl⟩

/-- Claim C8: `validate_progress` is idempotent — with the filesystem
unchanged, re-validating the validated ledger keeps every entry, so a
second run drops zero entries. -/
theorem claim8_validate_idempotent (present : String → Bool) (tempDir : String)
    (progress : List (String × SegData)) :
    (validate_progress present tempDir
        ((validate_progress present tempDir progress).1)).1
      = (validate_progress present tempDir progress).1 ∧
    droppedCount present tempDir ((validate_progress present tempDir progress).1) = 0 := by
  have hfix : (validate_progress present tempDir
      ((validate_progress present tempDir progress).1)).1
        = (validate_progress present tempDir progress).1 := by
    by_cases hemp : progress.isEmpty
    · have h0 : progress = [] := List.isEmpty_iff.mp hemp
      subst h0
      rfl
    · have hre : (validate_progress present tempDir progress).1
          = progress.filter (fun kv => checkEntry present tempDir kv.1 kv.2) := by
        rw [validate_progress, if_neg hemp]
      rw [hre]
      by_cases hemp2 : (progress.filter
          (fun kv => checkEntry present tempDir kv.1 kv.2)).isEmpty
      · rw [validate_progress, if_pos hemp2]
      · rw [validate_progress, if_neg hemp2]
        simp [List.filter_filter]
  refine ⟨hfix, ?_⟩
  rw [droppedCount, hfix, Nat.sub_self]

/-! ### Voice sample loading (`VoiceCloner.load_voice_samples`,
voice_cloner.py lines 90-105) -/

/-- `VoiceCloner.load_voice_samples`, with the work directory set.
`metadataOf v` models the parsed `metadata.json` of voice profile `v`
(`none` when `<approved>/<v>/metadata.json` does not exist), holding its
`"samples"` list; `present` models `os.path.exists`.  The samples are
returned only when the metadata exists and every referenced file exists;
every other path falls through to `return None`. -/
def load_voice_samples (metadataOf : String → Option (List String))
    (present : String → Bool) (voice : String) : Option (List String) :=
  match metadataOf voice with
  | some samples => if samples.all present then some samples else none
  | none => none

/-- Claim C9: `load_voice_samples` returns the approved list exactly
when the profile's metadata exists and every referenced sample file
exists; otherwise it returns `None` — and a returned list is always the
complete stored list, never a partial one. -/
theorem claim9_load_voice_samples (metadataOf : String → Option (List String))
    (present : String → Bool) (voice : String) :
    (∀ l, load_voice_samples metadataOf present voice = some l ↔
      (metadataOf voice = some l ∧ l.all present = true)) ∧
    (load_voice_samples metadataOf present voice = none ∨
      load_voice_samples metadataOf present voice = metadataOf voice) := by
  constructor
  · intro l
    cases hm : metadataOf voice with
    | none => simp [load_voice_samples, hm]
    | some samples =>
        by_cases hall : samples.all present = true
        · simp only [load_voice_samples, hm, if_pos hall]
          constructor
          · intro h
            obtain rfl := Option.some_inj.mp h
            exact ⟨rfl, hall⟩
          · intro ⟨h1, _⟩
            rw [Option.some_inj.mp h1]
        · simp only [load_voice_samples, hm, if_neg hall]
          constructor
          · intro h
            cases h
          · intro ⟨h1, h2⟩
            obtain rfl := Option.some_inj.mp h1
            exact absurd h2 hall
  · cases hm : metadataOf voice with
    | none => exact Or.inl (by simp [load_voice_samples, hm])
    | some samples =>
        by_cases hall : samples.all present = true
        · exact Or.inr (by simp [load_voice_samples, hm, hall])
        · exact Or.inl (by simp [load_voice_samples, hm, hall])

/-! ### Translation (`WhisperProcessor.translate_to_spanish`,
whisper_processor.py lines 88-110) -/

/-- `WhisperProcessor.translate_to_spanish`.  `engine t` models
`self.translator.translate(t, ...).text`: `none` when the call raises,
`some raw` otherwise; the in-memory cache is a map from source text to
cached translation.  Returns the translation result together with the
cache after the call.  Empty input is returned unchanged; a cache hit is
returned without consulting the engine; a successful non-empty stripped
translation is cached and returned; an empty stripped translation or an
exception returns the input text unchanged with the cache untouched. -/
def translate_to_spanish (engine : String → Option String)
    (cache : String → Option String) (text : String) :
    String × (String → Option String) :=
  if text = "" then (text, cache)
  else
    match cache text with
    | some t => (t, cache)
    | none =>
        match engine text with
        | none => (text, cache)
        | some raw =>
            let translated := raw.trim
            if translated = "" then (text, cache)
            else (translated, fun t => if t = text then some translated else cache t)

/-- Claim C10: on a cache miss, if the engine raises or yields an
empty-after-strip result, `translate_to_spanish` returns the input text
unchanged and leaves the cache untouched; and every cache entry after
any call is either a pre-existing entry or the successful non-empty
stripped translation of the input — only successful translations are
ever cached. -/
theorem claim10_translate_failure (engine : String → Option String)
    (cache : String → Option String) (text : String) :
    (cache text = none →
      (engine text = none ∨ (∃ raw, engine text = some raw ∧ raw.trim = "")) →
      translate_to_spanish engine cache text = (text, cache)) ∧
    (∀ t r, (translate_to_spanish engine cache text).2 t = some r →
      cache t = some r ∨
        (t = text ∧ ∃ raw, engine text = some raw ∧ r = raw.trim ∧ r ≠ "")) := by
  constructor
  · intro hmiss hfail
    by_cases ht : text = ""
    · rw [translate_to_spanish, if_pos ht]
    · rcases hfail with he | ⟨raw, hraw, htrim⟩
      · simp [translate_to_spanish, ht, hmiss, he]
      · simp [translate_to_spanish, ht, hmiss, hraw, htrim]
  · intro t r hr
    by_cases ht : text = ""
    · rw [translate_to_spanish, if_pos ht] at hr
      exact Or.inl hr
    · cases hc : cache text with
      | some cached =>
          have hres : translate_to_spanish engine cache text = (cached, cache) := by
            simp [translate_to_spanish, ht, hc]
          rw [hres] at hr
          exact Or.inl hr
      | none =>
          cases he : engine text with
          | none =>
              have hres : translate_to_spanish engine cache text = (text, cache) := by
                simp [translate_to_spanish, ht, hc, he]
              rw [hres] at hr
              exact Or.inl hr
          | some raw =>
              by_cases htr : raw.trim = ""
              · have hres : translate_to_spanish engine cache text = (text, cache) := by
                  simp [translate_to_spanish, ht, hc, he, htr]
                rw [hres] at hr
                exact Or.inl hr
              · have hres : translate_to_spanish engine cache text
                    = (raw.trim,
                        fun t2 => if t2 = text then some raw.trim else cache t2) := by
                  simp [translate_to_spanish, ht, hc, he, htr]
                rw [hres] at hr
                simp only at hr
                by_cases htt : t = text
                · rw [if_pos htt] at hr
                  have hrr : r = raw.trim := (Option.some_inj.mp hr).symm
                  refine Or.inr ⟨htt, raw, rfl, hrr, ?_⟩
                  rw [hrr]
                  exact htr
                · rw [if_neg htt] at hr
                  exact Or.inl hr

/-- Witness for claim C10: an engine that always raises leaves the text
and the (empty) cache unchanged. -/
theorem claim10_translate_failure_witness :
    translate_to_spanish (fun _ => none) (fun _ => none) "abc"
      = ("abc", fun _ => none) :=
  (claim10_translate_failure (fun _ => none) (fun _ => none) "abc").1 rfl (Or.inl rfl)

end VideoResound
